import Mathlib

/-!
Shallow embedding of `pubmed_pharma_papers` (files `paper_processor.py` and
`pubmed_client.py`) and proofs about its affiliation classifier, company-name
extractor, paper aggregator, CSV exporter and record parser.

Python strings are modelled as Lean `String` (in this toolchain a structure
holding a `List Char`); most computations work on the underlying `List Char`.
Python `str.lower` is modelled as ASCII lowercasing (all terms the code
matches against are ASCII), `str.strip` as trimming the ASCII whitespace
characters Python strips.
-/

/-- Characters removed by Python `str.strip()` (ASCII fragment). -/
def pyIsSpace (c : Char) : Bool :=
  c == ' ' || c == '\t' || c == '\n' || c == '\r' || c == '\x0b' || c == '\x0c'

/-- The first list is a leading segment of the second (Python `startswith`). -/
def startsL : List Char → List Char → Bool
  | [], _ => true
  | _ :: _, [] => false
  | a :: as, b :: bs => a == b && startsL as bs

/-- Python substring containment `needle in hay`. -/
def containsL (needle : List Char) : List Char → Bool
  | [] => needle.isEmpty
  | c :: rest => startsL needle (c :: rest) || containsL needle rest

/-- The second list is a trailing segment of the first (Python `endswith`). -/
def endsL (l s : List Char) : Bool :=
  startsL s.reverse l.reverse

/-- Python `str.strip()`: drop whitespace from both ends. -/
def trimL (l : List Char) : List Char :=
  ((l.dropWhile pyIsSpace).reverse.dropWhile pyIsSpace).reverse

/-- Python `str.lower()` on the character list of a string (ASCII model). -/
def lowerStr (s : String) : List Char :=
  s.data.map Char.toLower

/-- `PaperProcessor.ACADEMIC_TERMS` (paper_processor.py lines 21-25). -/
def ACADEMIC_TERMS : List String :=
  ["university", "college", "institute", "school", "academy", "hospital",
   "clinic", "medical center", "research center", "foundation", "laboratory",
   "national", "federal", "ministry", "department"]

/-- `PaperProcessor.PHARMA_TERMS` (paper_processor.py lines 14-18). -/
def PHARMA_TERMS : List String :=
  ["pharma", "pharmaceutical", "biotech", "therapeutics", "bioscience",
   "laboratories", "biologics", "biopharma", "medicines", "biotherapeutics",
   "biosystems", "drug", "health", "medical", "diagnostics", "genomics"]

/-- Company-entity indicator substrings (paper_processor.py line 62). -/
def COMPANY_INDICATORS : List String :=
  [" inc", " corp", " co.", " ltd", " llc", "company", " sa", " ag", " gmbh"]

/-- Alternatives of the fallback regex on line 66 of paper_processor.py. -/
def SUFFIX_TOKENS : List String :=
  ["inc", "corp", "co.", "ltd", "llc", "gmbh", "sa", "ag", "pty"]

/-- Some term of the list occurs as a substring of `lo`. -/
def hasTermIn (terms : List String) (lo : List Char) : Bool :=
  terms.any (fun t => containsL t.data lo)

/-- The regex search on line 66 of paper_processor.py. The pattern
anchors at the end of the (stripped) text, so it succeeds exactly when the
text ends with one of the tokens, optionally followed by one period. -/
def suffixEndsMatch (l : List Char) : Bool :=
  SUFFIX_TOKENS.any (fun t => endsL l t.data || endsL l (t.data ++ ['.']))

/-- `PaperProcessor.is_pharma_affiliation` (paper_processor.py lines 36-69).
The Python loop over `PHARMA_TERMS` returns true on the first term contained
in the lowered text whose indicator check succeeds; since the indicator check
does not depend on the term, the loop is equivalent to the conjunction
`some pharma term occurs AND some indicator occurs`, which is how it is
written here. -/
def isPharmaAffiliation (affiliation : String) : Bool :=
  if affiliation = "" then false
  else
    let lo := lowerStr affiliation
    if hasTermIn ACADEMIC_TERMS lo then false
    else if hasTermIn PHARMA_TERMS lo && hasTermIn COMPANY_INDICATORS lo then true
    else if suffixEndsMatch (trimL lo) then true
    else false

/-- `PaperProcessor.extract_company_name` (paper_processor.py lines 71-90).
The regex on line 86 anchors at the start of the string and captures one or
more characters that are neither a comma nor an opening parenthesis: it
matches exactly when the first character is not one of the two delimiters,
and the capture is the maximal such leading run. When the regex does not
match, line 90 returns the input unchanged. -/
def extractCompanyName (affiliation : String) : String :=
  if affiliation = "" then ""
  else
    let pre := affiliation.data.takeWhile (fun c => !(c == ',' || c == '('))
    if pre.isEmpty then affiliation else String.mk (trimL pre)

/-- Any list decomposing as a run of non-delimiters followed by nothing or a
delimiter is exactly what `takeWhile` captures. -/
theorem takeWhile_of_decomp (p : Char → Bool) :
    ∀ (pre post : List Char), (∀ c ∈ pre, p c = true) →
      (post = [] ∨ ∃ c cs, post = c :: cs ∧ p c = false) →
      (pre ++ post).takeWhile p = pre := by
  intro pre
  induction pre with
  | nil =>
    intro post _ hpost
    rcases hpost with h | ⟨c, cs, rfl, hc⟩
    · simp [h]
    · simp [List.takeWhile, hc]
  | cons a as ih =>
    intro post hpre hpost
    have ha : p a = true := hpre a (by simp)
    have has : ∀ c ∈ as, p c = true := fun c hc => hpre c (by simp [hc])
    simp [List.takeWhile, ha, ih post has hpost]

/-- C2: a string whose lower-cased form contains an academic-institution
indicator substring always classifies as non-industry, whatever else the
string contains. -/
theorem academic_term_forces_nonindustry (s t : String)
    (ht : t ∈ ACADEMIC_TERMS) (hc : containsL t.data (lowerStr s) = true) :
    isPharmaAffiliation s = false := by
  have hacad : hasTermIn ACADEMIC_TERMS (lowerStr s) = true := by
    unfold hasTermIn
    exact List.any_eq_true.mpr ⟨t, ht, hc⟩
  by_cases hs : s = ""
  · simp [isPharmaAffiliation, hs]
  · simp [isPharmaAffiliation, hs, hacad]

/-- Witness for C2 at the spec's own example. -/
theorem academic_term_forces_nonindustry_witness :
    isPharmaAffiliation "University Hospital Inc." = false :=
  academic_term_forces_nonindustry "University Hospital Inc." "university"
    (by decide) (by decide)

/-- C3: on text free of academic indicators, the classifier returns true
when a pharma-domain term and a company-entity indicator are both present,
true when the stripped text ends in a company-suffix token (optional trailing
period), and false otherwise; the spec's three example strings behave as
stated. -/
theorem two_signal_rule_and_suffix_fallback (s : String)
    (hacad : hasTermIn ACADEMIC_TERMS (lowerStr s) = false) :
    (hasTermIn PHARMA_TERMS (lowerStr s) = true →
      hasTermIn COMPANY_INDICATORS (lowerStr s) = true →
      isPharmaAffiliation s = true)
    ∧ (suffixEndsMatch (trimL (lowerStr s)) = true → isPharmaAffiliation s = true)
    ∧ ((hasTermIn PHARMA_TERMS (lowerStr s) = false ∨
        hasTermIn COMPANY_INDICATORS (lowerStr s) = false) →
      suffixEndsMatch (trimL (lowerStr s)) = false →
      isPharmaAffiliation s = false)
    ∧ isPharmaAffiliation "Acme Pharmaceuticals Inc" = true
    ∧ isPharmaAffiliation "Acme Pharmaceuticals" = false
    ∧ isPharmaAffiliation "Acme Corp" = true := by
  refine ⟨?_, ?_, ?_, by decide, by decide, by decide⟩
  · intro h1 h2
    by_cases hs : s = ""
    · rw [hs] at h1
      exact absurd h1 (by decide)
    · simp [isPharmaAffiliation, hs, hacad, h1, h2]
  · intro h3
    by_cases hs : s = ""
    · rw [hs] at h3
      exact absurd h3 (by decide)
    · by_cases h12 : hasTermIn PHARMA_TERMS (lowerStr s) &&
        hasTermIn COMPANY_INDICATORS (lowerStr s)
      · simp [isPharmaAffiliation, hs, hacad, h12]
      · simp [isPharmaAffiliation, hs, hacad, h12, h3]
  · intro h12 h3
    by_cases hs : s = ""
    · simp [isPharmaAffiliation, hs]
    · have h12b : (hasTermIn PHARMA_TERMS (lowerStr s) &&
        hasTermIn COMPANY_INDICATORS (lowerStr s)) = false := by
        rcases h12 with h | h <;> simp [h]
      simp [isPharmaAffiliation, hs, hacad, h12b, h3]

/-- Witness for C3 at the spec's end-to-end example affiliation. -/
theorem two_signal_rule_witness :
    isPharmaAffiliation "Novartis Pharmaceuticals AG, Basel" = true :=
  (two_signal_rule_and_suffix_fallback "Novartis Pharmaceuticals AG, Basel"
    (by decide)).1 (by decide) (by decide)

/-- C4 counterexample: on an input beginning with a comma the code returns
the input unchanged, not the trimmed (empty) text before the first comma
that the claim prescribes. -/
theorem extract_company_name_claim_fails :
    extractCompanyName ",Pfizer" = ",Pfizer" ∧ (",Pfizer" : String) ≠ "" := by
  constructor
  · decide
  · decide

/-- C4 (amended): on the empty string the extractor returns the empty
string; when the first character is a comma or opening parenthesis it
returns the input unchanged (untrimmed); otherwise it returns the maximal
leading run of non-delimiter characters (the text before the first comma or
opening parenthesis, which is the whole text when no delimiter occurs),
stripped of surrounding whitespace; the spec's three examples behave as
stated. -/
theorem extract_company_name_spec (s : String) (pre post : List Char)
    (hdec : s.data = pre ++ post)
    (hpre : ∀ c ∈ pre, c ≠ ',' ∧ c ≠ '(')
    (hpost : post = [] ∨ ∃ c cs, post = c :: cs ∧ (c = ',' ∨ c = '(')) :
    (s = "" → extractCompanyName s = "")
    ∧ (pre = [] → post ≠ [] → extractCompanyName s = s)
    ∧ (pre ≠ [] → extractCompanyName s = String.mk (trimL pre))
    ∧ extractCompanyName "Pfizer Inc, New York, USA" = "Pfizer Inc"
    ∧ extractCompanyName "Genentech (South San Francisco)" = "Genentech"
    ∧ extractCompanyName "" = "" := by
  have htake : s.data.takeWhile (fun c => !(c == ',' || c == '(')) = pre := by
    rw [hdec]
    apply takeWhile_of_decomp
    · intro c hc
      have := hpre c hc
      simp [this.1, this.2]
    · rcases hpost with h | ⟨c, cs, rfl, hc⟩
      · exact Or.inl h
      · refine Or.inr ⟨c, cs, rfl, ?_⟩
        rcases hc with h | h <;> simp [h]
  refine ⟨?_, ?_, ?_, by decide, by decide, by decide⟩
  · intro h
    rw [h]
    decide
  · intro hpe hpo
    have hs : s ≠ "" := by
      intro h
      apply hpo
      have h0 : s.data = [] := by rw [h]
      rw [hpe, List.nil_append] at hdec
      rw [h0] at hdec
      exact hdec.symm
    unfold extractCompanyName
    rw [if_neg hs]
    show (if (s.data.takeWhile (fun c => !(c == ',' || c == '('))).isEmpty
      then s else String.mk (trimL (s.data.takeWhile (fun c => !(c == ',' || c == '('))))) = s
    rw [htake, hpe]
    rfl
  · intro hpe
    have hs : s ≠ "" := by
      intro h
      have h0 : s.data = [] := by rw [h]
      rw [h0] at hdec
      exact hpe (List.append_eq_nil.mp hdec.symm).1
    unfold extractCompanyName
    rw [if_neg hs]
    show (if (s.data.takeWhile (fun c => !(c == ',' || c == '('))).isEmpty
      then s else String.mk (trimL (s.data.takeWhile (fun c => !(c == ',' || c == '('))))) =
      String.mk (trimL pre)
    rw [htake]
    rcases pre with _ | ⟨a, l⟩
    · exact absurd rfl hpe
    · rfl

/-- Witness for C4 (amended) at a concrete affiliation string. -/
theorem extract_company_name_spec_witness :
    extractCompanyName "Pfizer Inc, New York, USA" = "Pfizer Inc" := by
  have h := extract_company_name_spec "Pfizer Inc, New York, USA"
    "Pfizer Inc".data (", New York, USA").data (by decide)
    (by decide)
    (Or.inr ⟨',', " New York, USA".data, by decide, Or.inl rfl⟩)
  exact (h.2.2).1 (by decide)

/-- Author record produced by `PubMedClient._parse_papers` and consumed by
`PaperProcessor.process_papers`. The Python code stores it as a dict with
keys `name`, `affiliations`, `is_corresponding`, `email`, all always set by
the parser; `process_papers` reads them with defaulting `get`, which on these
records is plain field access. -/
structure Author where
  name : String
  affiliations : List String
  is_corresponding : Bool
  email : String
  deriving DecidableEq

/-- Paper record (dict with keys `pmid`, `title`, `publication_date`,
`authors`). -/
structure Paper where
  pmid : String
  title : String
  publication_date : String
  authors : List Author
  deriving DecidableEq

/-- Processed-paper dict built on lines 127-134 of paper_processor.py. The
fields carry, in order, the values of the keys `PubmedID`, `Title`,
`Publication Date`, `Non-academic Author(s)`, `Company Affiliation(s)` and
`Corresponding Author Email`. -/
structure ReportRow where
  pubmedID : String
  title : String
  publicationDate : String
  nonAcademicAuthors : String
  companyAffiliations : String
  correspondingEmail : String
  deriving DecidableEq

/-- Loop state of the author/affiliation scan in `process_papers`
(`pharma_authors`, `company_affiliations`, `corresponding_email`). The Python
`set` of company names is modelled as an insertion-ordered duplicate-free
list: membership agrees with the Python set, and the iteration order used by
`"; ".join` on a Python set is hash-dependent, so no claim depends on it. -/
structure AggState where
  names : List String
  companies : List String
  email : String
  deriving DecidableEq

/-- Python `set.add` on the insertion-ordered model of the company set. -/
def addCompany (cs : List String) (c : String) : List String :=
  if c ∈ cs then cs else cs ++ [c]

/-- Body of the affiliation loop (paper_processor.py lines 114-119): on a
positive classification append the author name and, when the extracted
company name is non-empty (Python truthiness), add it to the company set. -/
def stepAff (au : Author) (st : AggState) (aff : String) : AggState :=
  if isPharmaAffiliation aff then
    let companyName := extractCompanyName aff
    ⟨st.names ++ [au.name],
     if companyName ≠ "" then addCompany st.companies companyName else st.companies,
     st.email⟩
  else st

/-- Corresponding-author test on line 122: `is_corresponding` truthy and
`email` a non-empty string. -/
def corrHasEmail (au : Author) : Bool :=
  au.is_corresponding && !(au.email == "")

/-- Body of the author loop (paper_processor.py lines 110-123): scan the
author's affiliations, then overwrite `corresponding_email` whenever this
author is corresponding with a non-empty email. -/
def stepAuthor (st : AggState) (au : Author) : AggState :=
  let st2 := au.affiliations.foldl (stepAff au) st
  if corrHasEmail au then ⟨st2.names, st2.companies, au.email⟩ else st2

/-- Initial loop state (paper_processor.py lines 105-107). -/
def initAggState : AggState :=
  ⟨[], [], ""⟩

/-- Result of the author/affiliation scan for one paper. -/
def runPaper (p : Paper) : AggState :=
  p.authors.foldl stepAuthor initAggState

/-- Python `"; ".join`. -/
def joinSemi (l : List String) : String :=
  String.intercalate "; " l

/-- Per-paper part of `process_papers` (lines 104-135): build a row exactly
when `pharma_authors` is non-empty. -/
def processPaper (p : Paper) : Option ReportRow :=
  let st := runPaper p
  if st.names.isEmpty then none
  else some ⟨p.pmid, p.title, p.publication_date,
             joinSemi st.names, joinSemi st.companies, st.email⟩

/-- `PaperProcessor.process_papers` (paper_processor.py lines 92-140): the
loop appends one row per qualifying paper, in input order. -/
def processPapers (papers : List Paper) : List ReportRow :=
  papers.filterMap processPaper

/-- Modelled from the spec (claim C1's reading): the FIRST author in
iteration order with `is_corresponding = true` and a non-empty email supplies
the row's email field. Used only to exhibit the divergence from the code. -/
def specFirstCorrespondingEmail (authors : List Author) : String :=
  ((authors.find? corrHasEmail).map Author.email).getD ""

/-- The affiliation loop appends the author's name once per affiliation that
classifies as industry. -/
theorem foldl_stepAff_names (au : Author) :
    ∀ (affs : List String) (st : AggState),
      (affs.foldl (stepAff au) st).names =
        st.names ++ (affs.filter isPharmaAffiliation).map (fun _ => au.name) := by
  intro affs
  induction affs with
  | nil => intro st; simp
  | cons a l ih =>
    intro st
    simp only [List.foldl_cons, List.filter_cons]
    by_cases h : isPharmaAffiliation a
    · rw [ih]
      simp [stepAff, h]
    · rw [ih]
      simp [stepAff, h]

/-- The affiliation loop never touches the corresponding email. -/
theorem foldl_stepAff_email (au : Author) :
    ∀ (affs : List String) (st : AggState),
      (affs.foldl (stepAff au) st).email = st.email := by
  intro affs
  induction affs with
  | nil => intro st; rfl
  | cons a l ih =>
    intro st
    rw [List.foldl_cons, ih]
    by_cases h : isPharmaAffiliation a <;> simp [stepAff, h]

/-- Adding a non-empty name keeps the company set free of the empty string. -/
theorem addCompany_no_empty (cs : List String) (c : String)
    (hc : c ≠ "") (h : "" ∉ cs) : "" ∉ addCompany cs c := by
  unfold addCompany
  by_cases hm : c ∈ cs
  · simp [hm, h]
  · rw [if_neg hm]
    intro hmem
    rcases List.mem_append.mp hmem with h1 | h1
    · exact h h1
    · exact hc (List.mem_singleton.mp h1).symm

/-- The affiliation loop keeps the company set free of the empty string. -/
theorem foldl_stepAff_companies_no_empty (au : Author) :
    ∀ (affs : List String) (st : AggState),
      "" ∉ st.companies → "" ∉ (affs.foldl (stepAff au) st).companies := by
  intro affs
  induction affs with
  | nil => intro st h; exact h
  | cons a l ih =>
    intro st h
    rw [List.foldl_cons]
    apply ih
    by_cases hp : isPharmaAffiliation a
    · by_cases hc : extractCompanyName a ≠ ""
      · simpa [stepAff, hp, hc] using addCompany_no_empty st.companies _ hc h
      · simpa [stepAff, hp, hc] using h
    · simpa [stepAff, hp] using h

/-- One author step appends that author's name once per qualifying
affiliation. -/
theorem stepAuthor_names (st : AggState) (au : Author) :
    (stepAuthor st au).names =
      st.names ++ (au.affiliations.filter isPharmaAffiliation).map (fun _ => au.name) := by
  unfold stepAuthor
  by_cases h : corrHasEmail au <;> simp [h, foldl_stepAff_names]

/-- One author step sets the email exactly when the author is corresponding
with a non-empty email. -/
theorem stepAuthor_email (st : AggState) (au : Author) :
    (stepAuthor st au).email =
      if corrHasEmail au then au.email else st.email := by
  unfold stepAuthor
  by_cases h : corrHasEmail au <;> simp [h, foldl_stepAff_email]

/-- One author step keeps the company set free of the empty string. -/
theorem stepAuthor_companies_no_empty (st : AggState) (au : Author)
    (h : "" ∉ st.companies) : "" ∉ (stepAuthor st au).companies := by
  unfold stepAuthor
  by_cases hc : corrHasEmail au <;>
    simpa [hc] using foldl_stepAff_companies_no_empty au au.affiliations st h

/-- The author loop appends, per author in order, one copy of the author's
name per qualifying affiliation. -/
theorem foldl_stepAuthor_names :
    ∀ (aus : List Author) (st : AggState),
      (aus.foldl stepAuthor st).names =
        st.names ++
          (aus.map (fun au =>
            (au.affiliations.filter isPharmaAffiliation).map (fun _ => au.name))).flatten := by
  intro aus
  induction aus with
  | nil => intro st; simp
  | cons au tl ih =>
    intro st
    rw [List.foldl_cons, ih, stepAuthor_names]
    simp

/-- The author loop leaves the email of the LAST corresponding author with a
non-empty email, or the initial value when there is none. -/
theorem foldl_stepAuthor_email :
    ∀ (aus : List Author) (st : AggState),
      (aus.foldl stepAuthor st).email =
        ((aus.reverse.find? corrHasEmail).map Author.email).getD st.email := by
  intro aus
  induction aus with
  | nil => intro st; rfl
  | cons au tl ih =>
    intro st
    rw [List.foldl_cons, ih, List.reverse_cons, List.find?_append]
    cases hf : tl.reverse.find? corrHasEmail with
    | some a => simp [hf, Option.or]
    | none =>
      by_cases hc : corrHasEmail au <;>
        simp [hf, Option.or, stepAuthor_email, hc]

/-- The author loop keeps the company set free of the empty string. -/
theorem foldl_stepAuthor_companies_no_empty :
    ∀ (aus : List Author) (st : AggState),
      "" ∉ st.companies → "" ∉ (aus.foldl stepAuthor st).companies := by
  intro aus
  induction aus with
  | nil => intro st h; exact h
  | cons au tl ih =>
    intro st h
    rw [List.foldl_cons]
    exact ih _ (stepAuthor_companies_no_empty st au h)

/-- Names collected for one paper: one copy of each author's name per
qualifying affiliation, in iteration order. -/
theorem runPaper_names (p : Paper) :
    (runPaper p).names =
      (p.authors.map (fun au =>
        (au.affiliations.filter isPharmaAffiliation).map (fun _ => au.name))).flatten := by
  rw [runPaper, foldl_stepAuthor_names]
  rfl

/-- Email collected for one paper: the last corresponding author with a
non-empty email wins, else the empty string. -/
theorem runPaper_email (p : Paper) :
    (runPaper p).email =
      ((p.authors.reverse.find? corrHasEmail).map Author.email).getD "" := by
  rw [runPaper, foldl_stepAuthor_email]
  rfl

example :
    processPapers [⟨"1", "T", "2020",
      [⟨"Alice", ["Acme Drug Inc"], true, "first@acme.com"⟩,
       ⟨"Bob", [], true, "second@beta.com"⟩]⟩] =
    [⟨"1", "T", "2020", "Alice", "Acme Drug Inc", "second@beta.com"⟩] := by decide

/-- A paper qualifies for a row exactly when some author has some
affiliation classified as industry. -/
def paperQualifies (p : Paper) : Bool :=
  p.authors.any (fun au => au.affiliations.any isPharmaAffiliation)

/-- The row built for a qualifying paper. -/
def rowOf (p : Paper) : ReportRow :=
  ⟨p.pmid, p.title, p.publication_date,
   joinSemi (runPaper p).names, joinSemi (runPaper p).companies, (runPaper p).email⟩

/-- The collected author-name list is empty exactly when no author has an
industry-classified affiliation. -/
theorem runPaper_names_eq_nil_iff (p : Paper) :
    (runPaper p).names = [] ↔ paperQualifies p = false := by
  rw [runPaper_names]
  simp [paperQualifies, List.flatten_eq_nil_iff, List.filter_eq_nil_iff]

/-- `process_papers` emits `rowOf p` exactly for qualifying papers. -/
theorem processPaper_eq (p : Paper) :
    processPaper p = if paperQualifies p then some (rowOf p) else none := by
  have hn := runPaper_names_eq_nil_iff p
  by_cases hq : paperQualifies p = true
  · have h2 : (runPaper p).names ≠ [] := by
      intro h
      rw [hn.mp h] at hq
      exact absurd hq (by decide)
    simp [processPaper, rowOf, List.isEmpty_iff, h2, hq]
  · have hq2 : paperQualifies p = false := by
      revert hq
      cases paperQualifies p <;> simp
    simp [processPaper, List.isEmpty_iff, hn.mpr hq2, hq2]

/-- Filtering with an if built from a Bool test is filter-then-map. -/
theorem filterMap_if_eq_filter_map {α β : Type} (q : α → Bool) (f : α → β) :
    ∀ l : List α,
      (l.filterMap fun a => if q a then some (f a) else none) = (l.filter q).map f := by
  intro l
  induction l with
  | nil => rfl
  | cons a t ih =>
    by_cases h : q a <;> simp [List.filterMap_cons, List.filter_cons, h, ih]

/-- C5: a row is emitted for a paper iff some author carries some affiliation
classified as industry, and the emitted rows are the qualifying papers in
input order. -/
theorem process_papers_iff_and_order (papers : List Paper) :
    processPapers papers = (papers.filter paperQualifies).map rowOf
    ∧ ∀ p ∈ papers,
        ((processPaper p).isSome ↔
          ∃ au ∈ p.authors, ∃ aff ∈ au.affiliations, isPharmaAffiliation aff = true) := by
  constructor
  · have hfun : processPaper = fun p => if paperQualifies p then some (rowOf p) else none :=
      funext processPaper_eq
    rw [processPapers, hfun]
    exact filterMap_if_eq_filter_map paperQualifies rowOf papers
  · intro p _
    rw [processPaper_eq]
    have hiso : (if paperQualifies p then some (rowOf p) else none).isSome
        = paperQualifies p := by
      cases hq : paperQualifies p <;> simp [hq]
    rw [hiso]
    simp [paperQualifies, List.any_eq_true]

/-- C6: the collected author-name list holds one copy of each author's name
per industry-classified affiliation of that author (no deduplication); in
particular an author with two qualifying affiliations appears twice, also in
the semicolon-joined row field. -/
theorem duplicate_author_entries (p : Paper) :
    (runPaper p).names =
      (p.authors.map (fun au =>
        (au.affiliations.filter isPharmaAffiliation).map (fun _ => au.name))).flatten
    ∧ (runPaper ⟨"9", "T", "2021",
        [⟨"Jane Roe", ["Acme Drug Inc", "Beta Biotech Ltd"], false, ""⟩]⟩).names
        = ["Jane Roe", "Jane Roe"]
    ∧ (processPaper ⟨"9", "T", "2021",
        [⟨"Jane Roe", ["Acme Drug Inc", "Beta Biotech Ltd"], false, ""⟩]⟩).map
          ReportRow.nonAcademicAuthors = some "Jane Roe; Jane Roe" :=
  ⟨runPaper_names p, by decide, by decide⟩

/-- C1 counterexample: with two corresponding authors carrying non-empty
emails, the produced row holds the second (last) author's email, not the
first author's email that the claim prescribes. -/
theorem corresponding_email_first_wins_fails :
    (processPapers [⟨"1", "T", "2020",
      [⟨"Alice", ["Acme Drug Inc"], true, "first@acme.com"⟩,
       ⟨"Bob", [], true, "second@beta.com"⟩]⟩]).map ReportRow.correspondingEmail
      = ["second@beta.com"]
    ∧ specFirstCorrespondingEmail
        [⟨"Alice", ["Acme Drug Inc"], true, "first@acme.com"⟩,
         ⟨"Bob", [], true, "second@beta.com"⟩] = "first@acme.com"
    ∧ ("second@beta.com" : String) ≠ "first@acme.com" :=
  ⟨by decide, by decide, by decide⟩

/-- C1 (amended): the row's corresponding-author email equals the email of
the LAST author in iteration order with `is_corresponding = true` and a
non-empty email — a later such author overwrites an earlier one — and the
empty string when no such author exists. -/
theorem corresponding_email_last_wins (p : Paper) (r : ReportRow)
    (h : processPaper p = some r) :
    r.correspondingEmail =
      ((p.authors.reverse.find? corrHasEmail).map Author.email).getD "" := by
  simp only [processPaper] at h
  by_cases hn : (runPaper p).names.isEmpty
  · simp [hn] at h
  · rw [if_neg (by simpa using hn)] at h
    injection h with h2
    rw [← h2]
    exact runPaper_email p

/-- Witness for C1 (amended) at a concrete two-corresponding-author paper. -/
theorem corresponding_email_last_wins_witness :
    (⟨"1", "T", "2020", "Alice", "Acme Drug Inc",
        "second@beta.com"⟩ : ReportRow).correspondingEmail =
      ((([⟨"Alice", ["Acme Drug Inc"], true, "first@acme.com"⟩,
          ⟨"Bob", [], true, "second@beta.com"⟩] : List Author).reverse.find?
            corrHasEmail).map Author.email).getD "" :=
  corresponding_email_last_wins
    ⟨"1", "T", "2020",
      [⟨"Alice", ["Acme Drug Inc"], true, "first@acme.com"⟩,
       ⟨"Bob", [], true, "second@beta.com"⟩]⟩
    ⟨"1", "T", "2020", "Alice", "Acme Drug Inc", "second@beta.com"⟩
    (by decide)

/-- Python `csv` writer, default dialect: a field is quoted when it contains
the delimiter, the quote character, or a character of the line terminator
(QUOTE_MINIMAL). -/
def needsQuote (f : List Char) : Bool :=
  f.any (fun c => c == ',' || c == '"' || c == '\r' || c == '\n')

/-- Python `csv` writer doubles each quote character inside a quoted field. -/
def escapeQuotes (f : List Char) : List Char :=
  f.flatMap (fun c => if c == '"' then ['"', '"'] else [c])

/-- One CSV field as the Python `csv` writer emits it. -/
def writeField (f : List Char) : List Char :=
  if needsQuote f then '"' :: (escapeQuotes f ++ ['"']) else f

/-- Fields of one record joined by the delimiter. -/
def writeFields : List (List Char) → List Char
  | [] => []
  | [f] => writeField f
  | f :: g :: t => writeField f ++ ',' :: writeFields (g :: t)

/-- One CSV record: fields, delimiter-joined, plus the default line
terminator CR LF. -/
def writeRecord (r : List (List Char)) : List Char :=
  writeFields r ++ ['\r', '\n']

/-- All records in order, concatenated. -/
def writeAllRecords : List (List (List Char)) → List Char
  | [] => []
  | r :: rs => writeRecord r ++ writeAllRecords rs

/-- `fieldnames` of `export_to_csv` (paper_processor.py lines 159-163). -/
def CSV_FIELDNAMES : List String :=
  ["PubmedID", "Title", "Publication Date",
   "Non-academic Author(s)", "Company Affiliation(s)",
   "Corresponding Author Email"]

/-- Values of one processed row in `fieldnames` order, as the `DictWriter`
emits them. -/
def rowFields (r : ReportRow) : List (List Char) :=
  [r.pubmedID.data, r.title.data, r.publicationDate.data,
   r.nonAcademicAuthors.data, r.companyAffiliations.data,
   r.correspondingEmail.data]

/-- Header record written by `writer.writeheader()`. -/
def headerRecord : List (List Char) :=
  CSV_FIELDNAMES.map String.data

/-- Full CSV text for a non-empty row list: header record then one record
per row, in order. -/
def csvContent (rows : List ReportRow) : String :=
  String.mk (writeAllRecords (headerRecord :: rows.map rowFields))

/-- `PaperProcessor.export_to_csv` (paper_processor.py lines 142-182).
The pair models (returned value, content written to `file_path`): `none` in
the first slot is Python `None`; `none` in the second slot means no file
output was produced. On an empty row list the function returns early. -/
def exportToCsv (papers : List ReportRow) (filePath : Option String) :
    Option String × Option String :=
  if papers.isEmpty then
    (if filePath.isNone then (some "", none) else (none, none))
  else
    match filePath with
    | none => (some (csvContent papers), none)
    | some _ => (none, some (csvContent papers))

/-- C7: an empty row sequence yields the empty string without a destination
and no output at all with one; a non-empty sequence yields text whose first
line is the fixed header, returned as a string without a destination and
written (with no return value) with one. -/
theorem export_to_csv_contract (rows : List ReportRow) (fp : String)
    (h : rows ≠ []) :
    exportToCsv [] none = (some "", none)
    ∧ exportToCsv [] (some fp) = (none, none)
    ∧ exportToCsv rows none = (some (csvContent rows), none)
    ∧ exportToCsv rows (some fp) = (none, some (csvContent rows))
    ∧ (csvContent rows).data =
        ("PubmedID,Title,Publication Date,Non-academic Author(s),Company Affiliation(s),Corresponding Author Email\r\n").data
          ++ writeAllRecords (rows.map rowFields) := by
  have hne : ¬(rows.isEmpty = true) := by
    simp [List.isEmpty_iff, h]
  refine ⟨rfl, rfl, ?_, ?_, ?_⟩
  · unfold exportToCsv
    rw [if_neg hne]
  · unfold exportToCsv
    rw [if_neg hne]
  · show (writeRecord headerRecord ++ writeAllRecords (rows.map rowFields)) = _
    have hh : writeRecord headerRecord =
        ("PubmedID,Title,Publication Date,Non-academic Author(s),Company Affiliation(s),Corresponding Author Email\r\n").data := by
      decide
    rw [hh]

/-- Witness for C7 at a concrete one-row list and destination path. -/
theorem export_to_csv_contract_witness :
    exportToCsv [] none = (some "", none)
    ∧ exportToCsv [] (some "out.csv") = (none, none)
    ∧ exportToCsv [(⟨"1", "T", "2020", "A", "C", "e"⟩ : ReportRow)] none
        = (some (csvContent [⟨"1", "T", "2020", "A", "C", "e"⟩]), none)
    ∧ exportToCsv [(⟨"1", "T", "2020", "A", "C", "e"⟩ : ReportRow)] (some "out.csv")
        = (none, some (csvContent [⟨"1", "T", "2020", "A", "C", "e"⟩]))
    ∧ (csvContent [(⟨"1", "T", "2020", "A", "C", "e"⟩ : ReportRow)]).data =
        ("PubmedID,Title,Publication Date,Non-academic Author(s),Company Affiliation(s),Corresponding Author Email\r\n").data
          ++ writeAllRecords ([(⟨"1", "T", "2020", "A", "C", "e"⟩ : ReportRow)].map rowFields) :=
  export_to_csv_contract [⟨"1", "T", "2020", "A", "C", "e"⟩] "out.csv" (by decide)

/-- C10: the company set built for any paper never contains the empty
string; an industry affiliation whose extracted company name is empty still
appends the author's name but adds no company entry. -/
theorem company_set_no_empty_string (p : Paper) :
    "" ∉ (runPaper p).companies
    ∧ (runPaper ⟨"7", "T", "2019",
        [⟨"Jane Roe", ["  , Acme Drug Inc"], false, ""⟩]⟩).names = ["Jane Roe"]
    ∧ (runPaper ⟨"7", "T", "2019",
        [⟨"Jane Roe", ["  , Acme Drug Inc"], false, ""⟩]⟩).companies = [] := by
  refine ⟨?_, by decide, by decide⟩
  exact foldl_stepAuthor_companies_no_empty p.authors initAggState (by simp [initAggState])
example : isPharmaAffiliation "Acme Pharmaceuticals" = false := by decide
example : isPharmaAffiliation "Acme Corp" = true := by decide
example : isPharmaAffiliation "University Hospital Inc." = false := by decide
example : extractCompanyName "Pfizer Inc, New York, USA" = "Pfizer Inc" := by decide
example : extractCompanyName "Genentech (South San Francisco)" = "Genentech" := by decide
example : extractCompanyName "" = "" := by decide
example : extractCompanyName ",Pfizer" = ",Pfizer" := by decide

/-- Standard CSV reader, quoted-field state: the input starts just after an
opening quote. A doubled quote contributes one literal quote; a single quote
closes the field; the pair returned is (field value, unconsumed input). -/
def pQuoted : List Char → List Char × List Char
  | [] => ([], [])
  | [c] => if c == '"' then ([], []) else ([c], [])
  | c :: c2 :: rest =>
    if c == '"' then
      if c2 == '"' then
        let r := pQuoted rest
        ('"' :: r.1, r.2)
      else ([], c2 :: rest)
    else
      let r := pQuoted (c2 :: rest)
      (c :: r.1, r.2)

/-- A character that does not end an unquoted CSV field. -/
def notDelim (c : Char) : Bool :=
  !(c == ',' || c == '\r' || c == '\n')

/-- Standard CSV reader, one field: quoted when it opens with a quote,
otherwise everything up to the next delimiter or line break. -/
def pField : List Char → List Char × List Char
  | [] => ([], [])
  | c :: rest =>
    if c == '"' then pQuoted rest
    else ((c :: rest).takeWhile notDelim, (c :: rest).dropWhile notDelim)

/-- Standard CSV reader, one record: comma-separated fields ended by CR LF
(or a lone line break, or the end of input). The fuel bounds the number of
fields and only ever needs to reach the record's field count. -/
def pRecord : Nat → List Char → List (List Char) × List Char
  | 0, cs => ([], cs)
  | fuel + 1, cs =>
    let fr := pField cs
    match fr.2 with
    | [] => ([fr.1], [])
    | c :: rest =>
      if c == ',' then
        let rr := pRecord fuel rest
        (fr.1 :: rr.1, rr.2)
      else if c == '\r' then
        match rest with
        | c2 :: rest2 => if c2 == '\n' then ([fr.1], rest2) else ([fr.1], rest)
        | [] => ([fr.1], [])
      else ([fr.1], rest)

/-- Standard CSV reader, all records until the input is exhausted. -/
def pRecords : Nat → List Char → List (List (List Char))
  | 0, _ => []
  | fuel + 1, cs =>
    match cs with
    | [] => []
    | c :: rest =>
      let rr := pRecord (fuel + 1) (c :: rest)
      rr.1 :: pRecords fuel rr.2

/-- Fuel sufficient to parse a record list: one unit per field plus one per
record. -/
def neededFuel : List (List (List Char)) → Nat
  | [] => 0
  | r :: rs => r.length + 1 + neededFuel rs

/-- Standard CSV reader over a whole text; the initial fuel (one unit per
input character plus one) always suffices. -/
def parseCsv (s : String) : List (List (List Char)) :=
  pRecords (s.data.length + 1) s.data

/-- Companion to `takeWhile_of_decomp` for the remainder. -/
theorem dropWhile_of_decomp (p : Char → Bool) :
    ∀ (pre post : List Char), (∀ c ∈ pre, p c = true) →
      (post = [] ∨ ∃ c cs, post = c :: cs ∧ p c = false) →
      (pre ++ post).dropWhile p = post := by
  intro pre
  induction pre with
  | nil =>
    intro post _ hpost
    rcases hpost with h | ⟨c, cs, rfl, hc⟩
    · simp [h]
    · simp [List.dropWhile, hc]
  | cons a as ih =>
    intro post hpre hpost
    have ha : p a = true := hpre a (by simp)
    have has : ∀ c ∈ as, p c = true := fun c hc => hpre c (by simp [hc])
    simp [List.dropWhile, ha, ih post has hpost]

/-- A field that needs no quoting has no delimiter, quote or line break. -/
theorem needsQuote_false_mem (f : List Char) (hf : needsQuote f = false) :
    ∀ c ∈ f, notDelim c = true ∧ ¬(c = '"') := by
  intro c hc
  have h := List.any_eq_false.mp hf c hc
  have h1 : c ≠ ',' := fun e => by simp [e] at h
  have h2 : c ≠ '"' := fun e => by simp [e] at h
  have h3 : c ≠ '\r' := fun e => by simp [e] at h
  have h4 : c ≠ '\n' := fun e => by simp [e] at h
  exact ⟨by simp [notDelim, h1, h3, h4], h2⟩

/-- Reading a quoted body: the escaped field followed by the closing quote
and a non-quote character recovers the field, ending right at that
character. -/
theorem pQuoted_escape (f : List Char) :
    ∀ (d : Char) (rest : List Char), d ≠ '"' →
      pQuoted (escapeQuotes f ++ '"' :: d :: rest) = (f, d :: rest) := by
  induction f with
  | nil =>
    intro d rest hd
    show pQuoted ('"' :: d :: rest) = ([], d :: rest)
    simp [pQuoted, hd]
  | cons c f ih =>
    intro d rest hd
    by_cases hc : c = '"'
    · subst hc
      have hesc : escapeQuotes ('"' :: f) = '"' :: '"' :: escapeQuotes f := by
        simp [escapeQuotes]
      rw [hesc, List.cons_append, List.cons_append]
      simp [pQuoted, ih d rest hd]
    · have hesc : escapeQuotes (c :: f) = c :: escapeQuotes f := by
        simp [escapeQuotes, hc]
      rw [hesc, List.cons_append]
      rcases hE : escapeQuotes f ++ '"' :: d :: rest with _ | ⟨e, es⟩
      · exact absurd hE (by simp)
      · have hrec : pQuoted (e :: es) = (f, d :: rest) := by
          rw [← hE]
          exact ih d rest hd
        simp [pQuoted, hc, hrec]

/-- Reading a written field followed by a delimiter recovers the field and
stops at the delimiter. -/
theorem pField_write (f : List Char) (d : Char) (ds : List Char)
    (hd : d = ',' ∨ d = '\r') :
    pField (writeField f ++ d :: ds) = (f, d :: ds) := by
  have hdq : d ≠ '"' := by rcases hd with rfl | rfl <;> decide
  have hdd : notDelim d = false := by rcases hd with rfl | rfl <;> decide
  unfold writeField
  by_cases hq : needsQuote f
  · rw [if_pos hq]
    have heq : (('"' :: (escapeQuotes f ++ ['"'])) ++ d :: ds)
        = '"' :: (escapeQuotes f ++ '"' :: d :: ds) := by simp
    rw [heq]
    show pQuoted (escapeQuotes f ++ '"' :: d :: ds) = (f, d :: ds)
    exact pQuoted_escape f d ds hdq
  · rw [if_neg hq]
    have hmem := needsQuote_false_mem f (by revert hq; cases needsQuote f <;> simp)
    rcases f with _ | ⟨c, f2⟩
    · show pField (d :: ds) = ([], d :: ds)
      simp [pField, hdq, List.takeWhile, List.dropWhile, hdd]
    · have hc := hmem c (by simp)
      have ht : ((c :: f2) ++ d :: ds).takeWhile notDelim = c :: f2 :=
        takeWhile_of_decomp notDelim (c :: f2) (d :: ds)
          (fun x hx => (hmem x hx).1) (Or.inr ⟨d, ds, rfl, hdd⟩)
      have hdr : ((c :: f2) ++ d :: ds).dropWhile notDelim = d :: ds :=
        dropWhile_of_decomp notDelim (c :: f2) (d :: ds)
          (fun x hx => (hmem x hx).1) (Or.inr ⟨d, ds, rfl, hdd⟩)
      rw [List.cons_append] at ht hdr ⊢
      simp [pField, hc.2, ht, hdr]

/-- Reading a written record (followed by its CR LF and arbitrary further
text) recovers the record's fields and stops after the line terminator. -/
theorem pRecord_write (tail : List Char) :
    ∀ (fs : List (List Char)), fs ≠ [] → ∀ (fuel : Nat), fs.length ≤ fuel →
      pRecord fuel (writeFields fs ++ '\r' :: '\n' :: tail) = (fs, tail) := by
  intro fs
  induction fs with
  | nil => intro h; exact absurd rfl h
  | cons f l ih =>
    intro _ fuel hfuel
    cases fuel with
    | zero => simp at hfuel
    | succ n =>
      rcases l with _ | ⟨g, t⟩
      · have hf := pField_write f '\r' ('\n' :: tail) (Or.inr rfl)
        show pRecord (n + 1) (writeField f ++ '\r' :: '\n' :: tail) = ([f], tail)
        simp [pRecord, hf]
      · have hw : writeFields (f :: g :: t) ++ '\r' :: '\n' :: tail
            = writeField f ++ ',' :: (writeFields (g :: t) ++ '\r' :: '\n' :: tail) := by
          simp [writeFields]
        rw [hw]
        have hf := pField_write f ','
          (writeFields (g :: t) ++ '\r' :: '\n' :: tail) (Or.inl rfl)
        have hrec := ih (by simp) n (by simpa using Nat.le_of_succ_le_succ hfuel)
        simp [pRecord, hf, hrec]

/-- Unfolding `pRecords` on a non-empty input. -/
theorem pRecords_succ (n : Nat) (cs : List Char) (h : cs ≠ []) :
    pRecords (n + 1) cs =
      (pRecord (n + 1) cs).1 :: pRecords n (pRecord (n + 1) cs).2 := by
  cases cs with
  | nil => exact absurd rfl h
  | cons c r => rfl

/-- Reading a whole written record list recovers it, given sufficient fuel. -/
theorem pRecords_write :
    ∀ (recs : List (List (List Char))), (∀ r ∈ recs, r ≠ []) →
      ∀ (fuel : Nat), neededFuel recs ≤ fuel →
      pRecords fuel (writeAllRecords recs) = recs := by
  intro recs
  induction recs with
  | nil =>
    intro _ fuel _
    cases fuel <;> rfl
  | cons r rs ih =>
    intro hne fuel hfuel
    have hr : r ≠ [] := hne r (by simp)
    have hlen : r.length + 1 + neededFuel rs ≤ fuel := by
      simpa [neededFuel] using hfuel
    cases fuel with
    | zero => omega
    | succ n =>
      have hw : writeAllRecords (r :: rs)
          = writeFields r ++ '\r' :: '\n' :: writeAllRecords rs := by
        simp [writeAllRecords, writeRecord]
      have hcs : writeFields r ++ '\r' :: '\n' :: writeAllRecords rs ≠ [] := by
        simp
      rw [hw, pRecords_succ n _ hcs,
        pRecord_write (writeAllRecords rs) r hr (n + 1) (by omega)]
      have htail := ih (fun x hx => hne x (by simp [hx])) n (by omega)
      simp [htail]

/-- A record needs at most one more fuel unit than its written length. -/
theorem writeFields_length : ∀ (r : List (List Char)),
    r.length ≤ (writeFields r).length + 1
  | [] => by simp [writeFields]
  | [f] => by simp [writeFields]
  | f :: g :: t => by
    have ih := writeFields_length (g :: t)
    simp only [writeFields, List.length_append, List.length_cons] at ih ⊢
    omega

/-- The default fuel, one unit per written character plus one, covers the
needed fuel of any record list. -/
theorem neededFuel_le : ∀ (recs : List (List (List Char))),
    neededFuel recs ≤ (writeAllRecords recs).length
  | [] => by simp [neededFuel, writeAllRecords]
  | r :: rs => by
    have ih := neededFuel_le rs
    have hr := writeFields_length r
    simp only [neededFuel, writeAllRecords, writeRecord, List.length_append,
      List.length_cons] at ih hr ⊢
    omega

/-- C8: parsing the text produced by `export_to_csv` with a standard CSV
reader recovers the header record and then, in order, exactly the six field
values of every row — for all rows, including field values containing the
delimiter, the quote character or line breaks; an empty row list exports to
the empty string, which parses to zero records. -/
theorem csv_round_trip (rows : List ReportRow) :
    parseCsv (csvContent rows) = headerRecord :: rows.map rowFields
    ∧ parseCsv "" = [] := by
  refine ⟨?_, rfl⟩
  show pRecords ((writeAllRecords (headerRecord :: rows.map rowFields)).length + 1)
      (writeAllRecords (headerRecord :: rows.map rowFields))
    = headerRecord :: rows.map rowFields
  apply pRecords_write
  · intro r hr
    rcases List.mem_cons.mp hr with h | h
    · rw [h]
      decide
    · obtain ⟨row, _, hrow⟩ := List.mem_map.mp h
      rw [← hrow]
      simp [rowFields]
  · have := neededFuel_le (headerRecord :: rows.map rowFields)
    omega

set_option maxRecDepth 4000 in
example :
    parseCsv (csvContent [⟨"10", "A, first \"quoted\" title", "2020",
        "N One; N Two", "X Inc; Y Ltd", "a@b.example"⟩])
      = headerRecord ::
        [rowFields ⟨"10", "A, first \"quoted\" title", "2020",
          "N One; N Two", "X Inc; Y Ltd", "a@b.example"⟩] := by decide

/-- One `Identifier` element under an Author: its `Source` attribute and its
text (an absent attribute or text is modelled as the empty string, which the
Python code treats identically via truthiness). -/
structure IdentifierXml where
  source : String
  text : String
  deriving DecidableEq

/-- Abstraction of one `Author` XML element as `_parse_papers` reads it
(pubmed_client.py lines 179-241): each scalar field holds the result of the
corresponding `findtext(..., "")` (missing element or text gives the empty
string), `affiliationInfos` holds the `AffiliationInfo/Affiliation` texts in
document order, `directAffiliation` the old-style `Affiliation` text, and
`identifiers` the `Identifier` elements in order. -/
structure AuthorXml where
  lastName : String
  foreName : String
  initials : String
  collectiveName : String
  affiliationInfos : List String
  directAffiliation : String
  identifiers : List IdentifierXml
  deriving DecidableEq

/-- `PubDate` element: `findtext` results for Year, Month and Day. -/
structure PubDateXml where
  year : String
  month : String
  day : String
  deriving DecidableEq

/-- Abstraction of one `PubmedArticle` element: `none` models a missing
element (`find` returned None); a present element carries its text (missing
text modelled as the empty string). -/
structure ArticleXml where
  pmid : Option String
  title : Option String
  pubDate : Option PubDateXml
  authorList : Option (List AuthorXml)
  deriving DecidableEq

/-- Character class `[a-zA-Z0-9_.+-]` of the email regex on line 235. -/
def isLocalChar (c : Char) : Bool :=
  c.isAlpha || c.isDigit || c == '_' || c == '.' || c == '+' || c == '-'

/-- Character class `[a-zA-Z0-9-]` of the email regex. -/
def isDomChar (c : Char) : Bool :=
  c.isAlpha || c.isDigit || c == '-'

/-- Character class `[a-zA-Z0-9-.]` of the email regex. -/
def isTldChar (c : Char) : Bool :=
  c.isAlpha || c.isDigit || c == '-' || c == '.'

/-- Match of the email regex anchored at the head of the input: each plus
quantifier takes the maximal run (the character after each run is forced by
the following literal, so backtracking never helps). -/
def matchEmailAt (l : List Char) : Option (List Char) :=
  let run1 := l.takeWhile isLocalChar
  match l.dropWhile isLocalChar with
  | '@' :: rest2 =>
    if run1.isEmpty then none
    else
      let run2 := rest2.takeWhile isDomChar
      match rest2.dropWhile isDomChar with
      | '.' :: rest4 =>
        if run2.isEmpty then none
        else
          let run3 := rest4.takeWhile isTldChar
          if run3.isEmpty then none
          else some (run1 ++ '@' :: (run2 ++ '.' :: run3))
      | _ => none
  | _ => none

/-- `re.search` for the email pattern: leftmost match. -/
def searchEmail : List Char → Option (List Char)
  | [] => none
  | c :: rest =>
    match matchEmailAt (c :: rest) with
    | some m => some m
    | none => searchEmail rest

/-- Scan of the affiliation texts on lines 233-239: the first affiliation
containing a regex match supplies the email. -/
def findEmailInAffs : List String → Option String
  | [] => none
  | aff :: rest =>
    match searchEmail aff.data with
    | some m => some (String.mk m)
    | none => findEmailInAffs rest

/-- Author extraction (pubmed_client.py lines 179-241): skip the author when
there is neither a LastName nor a CollectiveName; affiliations come from the
non-empty AffiliationInfo texts, else from the direct Affiliation element;
the email comes from the first Identifier with Source "email" and makes the
author corresponding, and when that leaves the email empty, from the first
regex match inside the affiliation texts. -/
def parseAuthor (au : AuthorXml) : Option Author :=
  let name? : Option String :=
    if au.lastName ≠ "" then
      some (if au.foreName ≠ "" then au.foreName ++ " " ++ au.lastName
            else if au.initials ≠ "" then au.initials ++ " " ++ au.lastName
            else au.lastName)
    else if au.collectiveName ≠ "" then some au.collectiveName
    else none
  match name? with
  | none => none
  | some name =>
    let affs0 := au.affiliationInfos.filter (fun a => a != "")
    let affs := if affs0.isEmpty then
        (if au.directAffiliation ≠ "" then [au.directAffiliation] else [])
      else affs0
    match (au.identifiers.find? (fun i => i.source == "email")).map IdentifierXml.text with
    | some e =>
      if e = "" then
        match findEmailInAffs affs with
        | some e2 => some ⟨name, affs, true, e2⟩
        | none => some ⟨name, affs, true, ""⟩
      else some ⟨name, affs, true, e⟩
    | none =>
      match findEmailInAffs affs with
      | some e2 => some ⟨name, affs, true, e2⟩
      | none => some ⟨name, affs, false, ""⟩

/-- Publication-date assembly (pubmed_client.py lines 158-172): start from
the year and prepend month and then day, each only while the outer parts are
present. -/
def parseDateXml (d : Option PubDateXml) : String :=
  match d with
  | none => ""
  | some d =>
    if d.year ≠ "" then
      if d.month ≠ "" then
        if d.day ≠ "" then d.day ++ " " ++ d.month ++ " " ++ d.year
        else d.month ++ " " ++ d.year
      else d.year
    else ""

/-- Article extraction (pubmed_client.py lines 140-244): skip the whole
article when the PMID element is missing; otherwise default the title to the
empty string, assemble the date and parse the authors. -/
def parseArticle (a : ArticleXml) : Option Paper :=
  match a.pmid with
  | none => none
  | some pm =>
    some ⟨pm, a.title.getD "", parseDateXml a.pubDate,
          (a.authorList.getD []).filterMap parseAuthor⟩

/-- `PubMedClient._parse_papers` over the abstracted article list. An
unparseable payload (the `ET.ParseError` branch) corresponds to an empty
article list and yields zero papers. -/
def parsePapers (articles : List ArticleXml) : List Paper :=
  articles.filterMap parseArticle

/-- C9 counterexample: a record with a present month "June" and day "5" but
a missing year yields the empty publication date — the present parts are not
used, against the claim's "use whatever parts are present". -/
theorem date_parts_claim_fails :
    (parsePapers [⟨some "1", some "T", some ⟨"", "June", "5"⟩, none⟩]).map
        Paper.publication_date = [""]
    ∧ (⟨"", "June", "5"⟩ : PubDateXml).month = "June"
    ∧ (⟨"", "June", "5"⟩ : PubDateXml).day = "5" :=
  ⟨by decide, rfl, rfl⟩

/-- C9 (amended): a record with a missing PMID is skipped entirely — it
contributes no paper and hence no report row, and the records before and
after it are processed unaffected; an author element with neither a LastName
nor a CollectiveName is skipped while the article's other authors are kept;
the publication date degrades hierarchically over the present parts: empty
when the year is missing (even when month or day are present), the year
alone when the month is missing, month and year when the day is missing, and
day month year when all are present. -/
theorem parse_papers_degradation (pre post : List ArticleXml) (a : ArticleXml)
    (apre apost : List AuthorXml) (au : AuthorXml) (pm ti : String)
    (pd : Option PubDateXml) (d : PubDateXml)
    (hpmid : a.pmid = none)
    (hname : au.lastName = "" ∧ au.collectiveName = "") :
    parsePapers (pre ++ a :: post) = parsePapers (pre ++ post)
    ∧ processPapers (parsePapers (pre ++ a :: post))
        = processPapers (parsePapers (pre ++ post))
    ∧ parseArticle ⟨some pm, some ti, pd, some (apre ++ au :: apost)⟩
        = parseArticle ⟨some pm, some ti, pd, some (apre ++ apost)⟩
    ∧ (d.year = "" → parseDateXml (some d) = "")
    ∧ (d.year ≠ "" → d.month = "" → parseDateXml (some d) = d.year)
    ∧ (d.year ≠ "" → d.month ≠ "" → d.day = "" →
        parseDateXml (some d) = d.month ++ " " ++ d.year)
    ∧ (d.year ≠ "" → d.month ≠ "" → d.day ≠ "" →
        parseDateXml (some d) = d.day ++ " " ++ d.month ++ " " ++ d.year) := by
  have hskip : parsePapers (pre ++ a :: post) = parsePapers (pre ++ post) := by
    have ha : parseArticle a = none := by
      simp [parseArticle, hpmid]
    simp [parsePapers, List.filterMap_append, List.filterMap_cons, ha]
  have hau : parseAuthor au = none := by
    simp [parseAuthor, hname.1, hname.2]
  refine ⟨hskip, by rw [hskip], ?_, ?_, ?_, ?_, ?_⟩
  · simp [parseArticle, List.filterMap_append, List.filterMap_cons, hau]
  · intro h
    simp [parseDateXml, h]
  · intro h1 h2
    simp [parseDateXml, h1, h2]
  · intro h1 h2 h3
    simp [parseDateXml, h1, h2, h3]
  · intro h1 h2 h3
    simp [parseDateXml, h1, h2, h3]

/-- Witness for C9 (amended) at concrete records. -/
theorem parse_papers_degradation_witness :
    parsePapers [⟨none, some "X", none, none⟩,
        ⟨some "2", some "Y", none, none⟩]
      = parsePapers [⟨some "2", some "Y", none, none⟩]
    ∧ processPapers (parsePapers [⟨none, some "X", none, none⟩,
        ⟨some "2", some "Y", none, none⟩])
      = processPapers (parsePapers [⟨some "2", some "Y", none, none⟩])
    ∧ parseArticle ⟨some "2", some "Y", none,
        some [⟨"", "", "", "", [], "", []⟩, ⟨"Doe", "Jane", "", "", [], "", []⟩]⟩
      = parseArticle ⟨some "2", some "Y", none,
        some [⟨"Doe", "Jane", "", "", [], "", []⟩]⟩
    ∧ ((⟨"2020", "June", "5"⟩ : PubDateXml).year = "" →
        parseDateXml (some ⟨"2020", "June", "5"⟩) = "")
    ∧ ((⟨"2020", "June", "5"⟩ : PubDateXml).year ≠ "" →
        (⟨"2020", "June", "5"⟩ : PubDateXml).month = "" →
        parseDateXml (some ⟨"2020", "June", "5"⟩)
          = (⟨"2020", "June", "5"⟩ : PubDateXml).year)
    ∧ ((⟨"2020", "June", "5"⟩ : PubDateXml).year ≠ "" →
        (⟨"2020", "June", "5"⟩ : PubDateXml).month ≠ "" →
        (⟨"2020", "June", "5"⟩ : PubDateXml).day = "" →
        parseDateXml (some ⟨"2020", "June", "5"⟩)
          = (⟨"2020", "June", "5"⟩ : PubDateXml).month ++ " "
            ++ (⟨"2020", "June", "5"⟩ : PubDateXml).year)
    ∧ ((⟨"2020", "June", "5"⟩ : PubDateXml).year ≠ "" →
        (⟨"2020", "June", "5"⟩ : PubDateXml).month ≠ "" →
        (⟨"2020", "June", "5"⟩ : PubDateXml).day ≠ "" →
        parseDateXml (some ⟨"2020", "June", "5"⟩)
          = (⟨"2020", "June", "5"⟩ : PubDateXml).day ++ " "
            ++ (⟨"2020", "June", "5"⟩ : PubDateXml).month ++ " "
            ++ (⟨"2020", "June", "5"⟩ : PubDateXml).year) :=
  parse_papers_degradation [] [⟨some "2", some "Y", none, none⟩]
    ⟨none, some "X", none, none⟩
    [] [⟨"Doe", "Jane", "", "", [], "", []⟩] ⟨"", "", "", "", [], "", []⟩
    "2" "Y" none ⟨"2020", "June", "5"⟩ rfl ⟨rfl, rfl⟩
